import Mathlib

/-!
Verification of the s3db path-key store core: key and path normalization,
prefix-scoped listing with pagination, document get/put shaping, and the
copy/move composition. Definitions are shallow embeddings of the functions
in src/index.js (the canonical implementation) and of the copy/move layer
present in the src/unnamed variants. The S3 object backend is modelled as
an association list from fully qualified keys to stored bodies; its listing
primitive filters keys by plain string-prefix comparison, which is the
documented behavior of the service.
-/

namespace S3db

abbrev Chars := List Char

/-- Plain string-prefix test, as performed by the backend when filtering a
bucket listing by the Prefix request parameter. -/
def strStartsWith (s pat : String) : Bool :=
  pat.data.isPrefixOf s.data

/-- String suffix test, as performed by the JS String.endsWith calls in
joinPath, ensureJsonExtension and list. -/
def strEndsWith (s pat : String) : Bool :=
  pat.data.isSuffixOf s.data

/-- Collapse every run of repeated slashes to a single slash, the effect of
the regex replace of one-or-more slashes by a slash in joinPath. -/
def collapseSlashes : Chars → Chars
  | [] => []
  | [c] => [c]
  | c1 :: c2 :: rest =>
    if c1 = '/' ∧ c2 = '/' then collapseSlashes (c2 :: rest)
    else c1 :: collapseSlashes (c2 :: rest)

/-- The joinPath helper of src/index.js, specialized to its two-argument
call sites: join the parts with a slash, collapse any run of slashes, then
drop a trailing slash when the result is longer than one character. -/
def joinPath (a b : String) : String :=
  let joined := collapseSlashes (a.data ++ '/' :: b.data)
  if joined.getLast? = some '/' ∧ joined.length > 1 then
    String.mk joined.dropLast
  else
    String.mk joined

/-- The ensureJsonExtension helper of src/index.js on string keys: append
the .json suffix unless the key already ends with it. The JS function first
coerces a non-string argument to its textual representation; the model works
on the resulting string. -/
def ensureJsonExtension (key : String) : String :=
  if strEndsWith key ".json" then key else key ++ ".json"

/-- The fully qualified object path computed by put, get, delete and exists
in src/index.js: prefix joined with the extension-normalized key. -/
def docPath (pfx key : String) : String :=
  joinPath pfx (ensureJsonExtension key)

/-- JS String.replace with a string search pattern and empty replacement:
delete the first occurrence of the pattern, leave the string unchanged when
the pattern does not occur. -/
def replaceFirst : Chars → Chars → Chars
  | [], _ => []
  | c :: cs, pat =>
    if pat.isPrefixOf (c :: cs) then (c :: cs).drop pat.length
    else c :: replaceFirst cs pat

/-- String-level wrapper of replaceFirst. -/
def strReplaceFirst (s pat : String) : String :=
  String.mk (replaceFirst s.data pat.data)

/-- The per-key transformation of list in src/index.js: delete the first
occurrence of the full prefix followed by a slash, then delete the first
occurrence of .json. -/
def stripListedKey (fpfx key : String) : String :=
  strReplaceFirst (strReplaceFirst key (fpfx ++ "/")) ".json"

/-- The full listing prefix computed by list in src/index.js: the store
prefix, joined with the sub path when one is given, then shorn of a single
trailing slash. -/
def computeFullPfx (storePfx subPath : String) : String :=
  let fp0 := if subPath = "" then storePfx else joinPath storePfx subPath
  if strEndsWith fp0 "/" then String.mk fp0.data.dropLast else fp0

/-- One page of a paginated backend listing response: the returned object
keys and the truncation flag. -/
structure ListPage where
  contents : List String
  isTruncated : Bool
deriving DecidableEq, Repr

/-- Outcome of running the pagination loop of list over a trace of backend
pages. badMarkerAccess marks the state in which the loop reads the Key of
the last element of an empty contents array, an access to a missing
element; outOfPages marks a truncated trace with no further response. -/
inductive ListOutcome where
  | ok (keys : List String)
  | badMarkerAccess
  | outOfPages
deriving DecidableEq, Repr

/-- The pagination loop of list in src/index.js, run against a trace of
backend page responses: map every returned key through stripListedKey and
append; when the page is truncated, read the last element of its contents
as the next marker and continue with the next response. -/
def listRun (fpfx : String) : List ListPage → ListOutcome
  | [] => .outOfPages
  | page :: rest =>
    let keys := page.contents.map (stripListedKey fpfx)
    if page.isTruncated then
      match page.contents.getLast? with
      | none => .badMarkerAccess
      | some _marker =>
        match listRun fpfx rest with
        | .ok more => .ok (keys ++ more)
        | other => other
    else .ok keys

/-- The backend response to a listObjects request over a bucket holding the
given keys: every key that extends the request prefix by plain string
comparison, in one complete page. -/
def s3ListPage (bucketKeys : List String) (pfx : String) : ListPage :=
  ⟨bucketKeys.filter (fun k => strStartsWith k pfx), false⟩

/-- The whole list operation of src/index.js against a bucket whose listing
fits in one backend page: compute the full prefix, query the backend, strip
every returned key. -/
def listModel (storePfx subPath : String) (bucketKeys : List String) : ListOutcome :=
  let fpfx := computeFullPfx storePfx subPath
  listRun fpfx [s3ListPage bucketKeys fpfx]

/-! ## Basic lemmas about the string helpers -/

theorem replaceFirst_of_isPrefixOf (s pat : Chars) (h : pat.isPrefixOf s) :
    replaceFirst s pat = s.drop pat.length := by
  cases s with
  | nil =>
    have : pat = [] := by
      cases pat with
      | nil => rfl
      | cons c cs => simp [List.isPrefixOf] at h
    simp [this, replaceFirst]
  | cons c cs => simp [replaceFirst, h]

theorem replaceFirst_longer (s pat : Chars) (h : s.length < pat.length) :
    replaceFirst s pat = s := by
  induction s with
  | nil => simp [replaceFirst]
  | cons c cs ih =>
    have hnp : pat.isPrefixOf (c :: cs) = false := by
      by_contra hcon
      have htrue : pat.isPrefixOf (c :: cs) = true := by
        cases hb : pat.isPrefixOf (c :: cs) with
        | false => exact absurd hb hcon
        | true => rfl
      have hpfx := List.isPrefixOf_iff_prefix.mp htrue
      have := hpfx.length_le
      omega
    have hlt : cs.length < pat.length := by
      simp at h
      omega
    simp [replaceFirst, hnp, ih hlt]

theorem replaceFirst_self (s : Chars) : replaceFirst s s = [] := by
  cases s with
  | nil => simp [replaceFirst]
  | cons c cs =>
    have h : (c :: cs).isPrefixOf (c :: cs) := by
      exact List.isPrefixOf_iff_prefix.mpr (List.prefix_refl _)
    rw [replaceFirst_of_isPrefixOf _ _ h]
    simp

/-! ## Claims about key and path normalization -/

/-- C2 counterexample: on the joinPath of src/index.js an empty prefix does
contribute a leading separator, so joining the empty prefix with the key b
does not yield the bare key b. -/
theorem C2_joinPath_empty_counterexample : joinPath "" "b" ≠ "b" := by decide

/-- C2 (amended): joinPath joins with exactly one separator and collapses
redundant separators at the join point, so the three listed argument shapes
all evaluate to the key a slash b; but an empty prefix contributes a leading
separator: joining the empty prefix with b yields slash b, not bare b. -/
theorem C2_joinPath_normalization :
    joinPath "a" "b" = "a/b" ∧ joinPath "a/" "/b" = "a/b" ∧
    joinPath "a/" "b/" = "a/b" ∧ joinPath "" "b" = "/b" := by decide

/-- C6: ensureJsonExtension appends the .json suffix exactly when the key
does not already end with it, it is idempotent, and a key with and without
the suffix produce the same fully qualified put target path. -/
theorem C6_ensureJsonExtension_spec :
    ∀ (k pfx : String),
      (strEndsWith k ".json" = true → ensureJsonExtension k = k) ∧
      (strEndsWith k ".json" = false → ensureJsonExtension k = k ++ ".json") ∧
      ensureJsonExtension (ensureJsonExtension k) = ensureJsonExtension k ∧
      (strEndsWith k ".json" = false →
        docPath pfx k = docPath pfx (k ++ ".json")) := by
  intro k pfx
  have happ : strEndsWith (k ++ ".json") ".json" = true := by
    have : ".json".data <:+ (k ++ ".json").data := by
      rw [String.data_append]
      exact List.suffix_append _ _
    simp only [strEndsWith, List.isSuffixOf_iff_suffix, decide_eq_true_eq]
    exact this
  refine ⟨fun h => by simp [ensureJsonExtension, h], fun h => by simp [ensureJsonExtension, h], ?_, ?_⟩
  · by_cases h : strEndsWith k ".json" = true
    · simp [ensureJsonExtension, h]
    · simp only [Bool.not_eq_true] at h
      simp [ensureJsonExtension, h, happ]
  · intro h
    simp [docPath, ensureJsonExtension, h, happ]

/-- C6 witness: the idempotence and shared-target facts instantiated at the
concrete key k of the spec example. -/
theorem C6_ensureJsonExtension_spec_witness :
    ensureJsonExtension "k" = "k" ++ ".json" ∧ docPath "users" "k" = docPath "users" "k.json" :=
  ⟨(C6_ensureJsonExtension_spec "k" "users").2.1 (by decide),
   (C6_ensureJsonExtension_spec "k" "users").2.2.2 (by decide)⟩

/-! ## Claims about listing -/

/-- C1: evaluation of list at the failing input. With the store prefix
testdata/doesnotexist/ and a bucket holding only the near-miss object
testdata/doesnotexist_doesexist/12345, the code computes the listing prefix
testdata/doesnotexist with its trailing separator stripped, the backend
prefix filter therefore matches the near-miss key, and the stripping step
leaves it untouched, so list returns the foreign key instead of the empty
sequence asserted by the spec and by the repository's own test. -/
theorem C1_list_near_miss_bug :
    listModel "testdata/doesnotexist/" "" ["testdata/doesnotexist_doesexist/12345"]
        = .ok ["testdata/doesnotexist_doesexist/12345"] ∧
    listModel "testdata/doesnotexist/" "" ["testdata/doesnotexist_doesexist/12345"]
        ≠ .ok [] := by
  exact ⟨by decide, by decide⟩

/-- C3 counterexample: a backend key equal to the bare full prefix is not
excluded from the listing result; it contributes its own full text as an
entry, where the claim demands the empty result. -/
theorem C3_bare_pfx_counterexample :
    listModel "users" "" ["users"] = .ok ["users"] ∧
    listModel "users" "" ["users"] ≠ .ok [] := ⟨by decide, by decide⟩

/-- C3 (amended): every identifier of a returned page contributes exactly
one result entry, obtained by deleting the first occurrence of the full
prefix followed by a slash and then the first occurrence of .json; when the
identifier extends the full prefix at the separator boundary this deletes
the prefix from the front, but identifiers not strictly longer than the
full prefix are not excluded: a key equal to the bare prefix contributes
its own text less a first .json occurrence, and a directory marker key,
the full prefix plus the separator, contributes the empty string. -/
theorem C3_listing_strip :
    ∀ (fpfx key : String),
      ((fpfx ++ "/").data.isPrefixOf key.data = true →
        stripListedKey fpfx key
          = strReplaceFirst (String.mk (key.data.drop (fpfx.data.length + 1))) ".json") ∧
      stripListedKey fpfx fpfx = strReplaceFirst fpfx ".json" ∧
      stripListedKey fpfx (fpfx ++ "/") = "" ∧
      ∀ (contents : List String),
        listRun fpfx [⟨contents, false⟩] = .ok (contents.map (stripListedKey fpfx)) := by
  intro fpfx key
  refine ⟨?_, ?_, ?_, ?_⟩
  · intro h
    have hlen : (fpfx ++ "/").data.length = fpfx.data.length + 1 := by
      simp [String.data_append]
    simp only [stripListedKey, strReplaceFirst]
    rw [replaceFirst_of_isPrefixOf _ _ h, hlen]
  · have hlt : fpfx.data.length < (fpfx ++ "/").data.length := by
      simp [String.data_append]
    simp only [stripListedKey, strReplaceFirst]
    rw [replaceFirst_longer _ _ hlt]
  · have hself : replaceFirst (fpfx ++ "/").data (fpfx ++ "/").data = [] :=
      replaceFirst_self _
    simp only [stripListedKey, strReplaceFirst, hself]
    simp [replaceFirst]
  · intro contents
    simp [listRun]

/-- C3 witness: the stripping characterization applied at a boundary
extending key, at a bare-prefix key and at a directory marker key. -/
theorem C3_listing_strip_witness :
    stripListedKey "users" "users/subpath/U12346.json" = "subpath/U12346" ∧
    stripListedKey "users" "users" = "users" ∧
    stripListedKey "users" "users/" = "" := by
  have h1 := (C3_listing_strip "users" "users/subpath/U12346.json").1 (by decide)
  have h2 := (C3_listing_strip "users" "users").2.1
  have h3 := (C3_listing_strip "users" "users").2.2.1
  refine ⟨?_, ?_, ?_⟩
  · rw [h1]; decide
  · rw [h2]; decide
  · exact h3

/-- C10: the pagination loop of list is well defined exactly under the
precondition that every page flagged as truncated has nonempty contents: a
trace all of whose truncated pages are nonempty never reaches the
missing-element marker access, while the trace consisting of one truncated
page with empty contents drives the marker computation into an access to a
missing element. -/
theorem C10_pagination_marker :
    (∀ (fpfx : String) (pages : List ListPage),
        (∀ p ∈ pages, p.isTruncated = true → p.contents ≠ []) →
        listRun fpfx pages ≠ .badMarkerAccess) ∧
    listRun "users" [⟨[], true⟩] = .badMarkerAccess := by
  constructor
  · intro fpfx pages h
    induction pages with
    | nil => simp [listRun]
    | cons page rest ih =>
      have hrest : ∀ p ∈ rest, p.isTruncated = true → p.contents ≠ [] := by
        intro p hp
        exact h p (List.mem_cons_of_mem _ hp)
      by_cases htr : page.isTruncated = true
      · have hne : page.contents ≠ [] := h page (List.mem_cons_self _ _) htr
        have hlast : page.contents.getLast? ≠ none := by
          simpa [List.getLast?_eq_none_iff] using hne
        obtain ⟨m, hm⟩ := Option.ne_none_iff_exists'.mp hlast
        simp only [listRun, htr, if_true, hm]
        cases hrec : listRun fpfx rest with
        | ok more => simp
        | badMarkerAccess => exact absurd hrec (ih hrest)
        | outOfPages => simp
      · simp only [Bool.not_eq_true] at htr
        simp [listRun, htr]
  · decide

/-- C10 witness: a concrete two-page trace whose truncated first page is
nonempty runs without reaching the missing-element access. -/
theorem C10_pagination_marker_witness :
    listRun "users" [⟨["users/a.json"], true⟩, ⟨[], false⟩] ≠ .badMarkerAccess :=
  C10_pagination_marker.1 "users" [⟨["users/a.json"], true⟩, ⟨[], false⟩] (by decide)

/-! ## Backend state model: the bucket as a key-to-body association list -/

abbrev S3State := List (String × String)

/-- Body stored under a fully qualified key, newest write first. -/
def lookupS3 (key : String) : S3State → Option String
  | [] => none
  | (k, v) :: rest => if k = key then some v else lookupS3 key rest

/-- The backend putObject and copyObject write: newest entry shadows older
ones for the same key. -/
def insertS3 (key body : String) (st : S3State) : S3State :=
  (key, body) :: st

/-- The backend deleteObject effect: remove every entry stored under the
key; deleting an absent key is not an error. -/
def eraseS3 (key : String) : S3State → S3State
  | [] => []
  | (k, v) :: rest => if k = key then eraseS3 key rest else (k, v) :: eraseS3 key rest

/-- One primitive backend call, recorded so that theorems can speak about
which calls an operation issued and in which order. -/
inductive S3Call where
  | headObject (key : String)
  | copyObject (src dest : String)
  | deleteObject (key : String)
deriving DecidableEq, Repr

/-- Whether a backend call can change the bucket state. -/
def S3Call.mutating : S3Call → Bool
  | .headObject _ => false
  | .copyObject _ _ => true
  | .deleteObject _ => true

/-- Failure classification of the copy and move layer: the pre-flight
existence probe finding the source absent, versus an error code returned by
the backend itself. -/
inductive OpErr where
  | sourceNotFound
  | backendErr (code : String)
deriving DecidableEq, Repr

/-- The existsFullyQualified helper of the source: a headObject probe whose
NotFound error is mapped to false. On the state model the probe succeeds
exactly when the key is present. -/
def existsFullyQualified (key : String) (st : S3State) : Bool :=
  (lookupS3 key st).isSome

/-- The backend copyObject primitive on the state model: copy the stored
source body to the destination key. The service reports a missing source as
NoSuchKey and rejects a copy of an object onto itself with no metadata
change; both surface as backend error codes. -/
def s3CopyObject (src dest : String) (st : S3State) : Except String S3State :=
  match lookupS3 src st with
  | none => .error "NoSuchKey"
  | some v => if dest = src then .error "InvalidRequest" else .ok (insertS3 dest v st)

/-- The copyFullyQualified operation of the source: probe the source with
headObject, fail with the source-not-found error before any mutating call
when it is absent, otherwise issue one backend copyObject call. Returns the
outcome, the resulting bucket state and the list of backend calls issued,
in order. -/
def copyFullyQualified (src dest : String) (st : S3State) :
    Except OpErr Unit × S3State × List S3Call :=
  if existsFullyQualified src st then
    match s3CopyObject src dest st with
    | .ok st2 => (.ok (), st2, [.headObject src, .copyObject src dest])
    | .error code => (.error (.backendErr code), st, [.headObject src, .copyObject src dest])
  else
    (.error .sourceNotFound, st, [.headObject src])

/-- The moveFullyQualified operation of the source: copyFullyQualified,
and only if it succeeds, one deleteObject call on the source path. -/
def moveFullyQualified (src dest : String) (st : S3State) :
    Except OpErr Unit × S3State × List S3Call :=
  match copyFullyQualified src dest st with
  | (.ok _, st2, calls) => (.ok (), eraseS3 src st2, calls ++ [.deleteObject src])
  | (.error e, st2, calls) => (.error e, st2, calls)

theorem lookupS3_eraseS3_self (key : String) (st : S3State) :
    lookupS3 key (eraseS3 key st) = none := by
  induction st with
  | nil => simp [eraseS3, lookupS3]
  | cons kv rest ih =>
    obtain ⟨k, v⟩ := kv
    by_cases h : k = key
    · simp [eraseS3, h, ih]
    · simp [eraseS3, h, lookupS3, ih]

theorem lookupS3_eraseS3_ne (key other : String) (st : S3State) (h : key ≠ other) :
    lookupS3 key (eraseS3 other st) = lookupS3 key st := by
  induction st with
  | nil => simp [eraseS3]
  | cons kv rest ih =>
    obtain ⟨k, v⟩ := kv
    by_cases hk : k = other
    · simp [eraseS3, hk, lookupS3, Ne.symm h, ih]
    · simp [eraseS3, hk, lookupS3, ih]

theorem lookupS3_insertS3_self (key body : String) (st : S3State) :
    lookupS3 key (insertS3 key body st) = some body := by
  simp [insertS3, lookupS3]

/-! ## Claims about copy and move -/

/-- C7: when the source path is absent, copyFullyQualified fails with the
source-not-found error, issues no mutating backend call at all, and leaves
the bucket state unchanged: the existence probe happens before any
mutation. -/
theorem C7_copy_source_missing :
    ∀ (src dest : String) (st : S3State),
      lookupS3 src st = none →
      (copyFullyQualified src dest st).1 = .error .sourceNotFound ∧
      (copyFullyQualified src dest st).2.1 = st ∧
      (copyFullyQualified src dest st).2.2.filter (fun c => c.mutating) = [] := by
  intro src dest st h
  have hex : existsFullyQualified src st = false := by
    simp [existsFullyQualified, h]
  refine ⟨?_, ?_, ?_⟩ <;> simp [copyFullyQualified, hex, S3Call.mutating]

/-- C7 witness: copying from a missing source over the empty bucket. -/
theorem C7_copy_source_missing_witness :
    (copyFullyQualified "users/missing.json" "users/dest.json" []).1 = .error .sourceNotFound ∧
    (copyFullyQualified "users/missing.json" "users/dest.json" []).2.1 = [] ∧
    (copyFullyQualified "users/missing.json" "users/dest.json" []).2.2.filter
        (fun c => c.mutating) = [] :=
  C7_copy_source_missing "users/missing.json" "users/dest.json" [] (by decide)

/-- C8: when the source key a holds body v, a successful move of a to b
leaves a absent and b holding v; the delete of the source appears in the
issued calls only when copyFullyQualified succeeded; and when the copy step
fails, no delete of the source is issued and the bucket state is unchanged. -/
theorem C8_move_semantics :
    ∀ (a b v : String) (st : S3State),
      lookupS3 a st = some v →
      ((moveFullyQualified a b st).1 = .ok () →
        existsFullyQualified a (moveFullyQualified a b st).2.1 = false ∧
        lookupS3 b (moveFullyQualified a b st).2.1 = some v) ∧
      (S3Call.deleteObject a ∈ (moveFullyQualified a b st).2.2 →
        (copyFullyQualified a b st).1 = .ok ()) ∧
      ((copyFullyQualified a b st).1 ≠ .ok () →
        (moveFullyQualified a b st).2.1 = st ∧
        S3Call.deleteObject a ∉ (moveFullyQualified a b st).2.2) := by
  intro a b v st h
  have hex : existsFullyQualified a st = true := by
    simp [existsFullyQualified, h]
  by_cases hba : b = a
  · have hc : copyFullyQualified a b st
        = (.error (.backendErr "InvalidRequest"), st, [.headObject a, .copyObject a b]) := by
      simp [copyFullyQualified, hex, s3CopyObject, h, hba]
    have hm : moveFullyQualified a b st
        = (.error (.backendErr "InvalidRequest"), st, [.headObject a, .copyObject a b]) := by
      simp only [moveFullyQualified, hc]
    refine ⟨?_, ?_, ?_⟩
    · intro hok
      rw [hm] at hok
      simp at hok
    · intro hmem
      rw [hm] at hmem
      simp at hmem
    · intro _
      rw [hm]
      simp
  · have hc : copyFullyQualified a b st
        = (.ok (), insertS3 b v st, [.headObject a, .copyObject a b]) := by
      simp [copyFullyQualified, hex, s3CopyObject, h, hba]
    have hm : moveFullyQualified a b st
        = (.ok (), eraseS3 a (insertS3 b v st),
            [.headObject a, .copyObject a b, .deleteObject a]) := by
      simp only [moveFullyQualified, hc]
      rfl
    refine ⟨?_, ?_, ?_⟩
    · intro _
      rw [hm]
      constructor
      · simp [existsFullyQualified, lookupS3_eraseS3_self]
      · simp only
        rw [lookupS3_eraseS3_ne b a _ hba, lookupS3_insertS3_self]
    · intro _
      rw [hc]
    · intro hne
      rw [hc] at hne
      simp at hne

/-- C8 witness: a concrete move of a stored user document to a fresh path
succeeds, removes the source and carries the body to the destination. -/
theorem C8_move_semantics_witness :
    existsFullyQualified "users/U12345.json"
        (moveFullyQualified "users/U12345.json" "users/move/U12345.json"
          [("users/U12345.json", "BODY")]).2.1 = false ∧
    lookupS3 "users/move/U12345.json"
        (moveFullyQualified "users/U12345.json" "users/move/U12345.json"
          [("users/U12345.json", "BODY")]).2.1 = some "BODY" :=
  (C8_move_semantics "users/U12345.json" "users/move/U12345.json" "BODY"
      [("users/U12345.json", "BODY")] (by decide)).1 rfl

/-! ## JSON documents and their platform serialization

The put and get operations delegate value encoding to the platform JSON
stringify and parse builtins, which are external to the repository. They
are modelled concretely: documents are the inductive Json below, stringify
is printJson, either compact or with the two-space indentation that the
formatForReadability option of put selects, and parse is a recursive
descent parser over the produced text. Numbers are modelled as integers;
fractional and exponent forms concern floating-point formatting and are
outside the model. -/

inductive Json where
  | null
  | bool (b : Bool)
  | num (n : Int)
  | str (s : String)
  | arr (elems : List Json)
  | obj (fields : List (String × Json))
deriving Repr

/-- Decimal digit character for a value below ten. -/
def digitChar (n : Nat) : Char := Char.ofNat (48 + n)

/-- Little-endian-free decimal digit list of a natural number, most
significant digit first, produced with a structural fuel so that the
definition evaluates inside the kernel. -/
def natDigitsAux : Nat → Nat → List Nat → List Nat
  | 0, _, acc => acc
  | fuel + 1, n, acc =>
    if n < 10 then n :: acc else natDigitsAux fuel (n / 10) (n % 10 :: acc)

def natDigits (n : Nat) : List Nat := natDigitsAux (n + 1) n []

def natChars (n : Nat) : Chars := (natDigits n).map digitChar

/-- Decimal text of an integer, as the JSON stringify builtin prints an
integral number value. -/
def intChars (n : Int) : Chars :=
  if n < 0 then '-' :: natChars n.natAbs else natChars n.toNat

/-- Lower-case hexadecimal digit character for a value below sixteen. -/
def hexDigitChar (n : Nat) : Char :=
  if n < 10 then Char.ofNat (48 + n) else Char.ofNat (87 + n)

/-- The keyword texts of the three JSON literals. -/
def nullChars : Chars := ['n', 'u', 'l', 'l']

def trueChars : Chars := ['t', 'r', 'u', 'e']

def falseChars : Chars := ['f', 'a', 'l', 's', 'e']

/-- The four-digit unicode escape of a control character value, two
leading zero digits then the two hex digits of the value. -/
def uEscape (n : Nat) : Chars :=
  '\\' :: 'u' :: '0' :: '0' :: hexDigitChar (n / 16) :: [hexDigitChar (n % 16)]

/-- The escape of one character inside a JSON string literal: quote and
backslash escaped, the named control escapes, a four-digit unicode escape
for the remaining control characters, every other character verbatim. -/
def escChar (c : Char) : Chars :=
  if c = '"' then ['\\', '"']
  else if c = '\\' then ['\\', '\\']
  else if c = Char.ofNat 8 then ['\\', 'b']
  else if c = Char.ofNat 9 then ['\\', 't']
  else if c = Char.ofNat 10 then ['\\', 'n']
  else if c = Char.ofNat 12 then ['\\', 'f']
  else if c = Char.ofNat 13 then ['\\', 'r']
  else if c.toNat < 32 then uEscape c.toNat
  else [c]

def escStr : Chars → Chars
  | [] => []
  | c :: cs => escChar c ++ escStr cs

/-- A JSON string literal: escaped body between double quotes. -/
def quoteStr (s : Chars) : Chars := '"' :: (escStr s ++ ['"'])

/-- Newline plus indentation emitted inside brackets when an indentation
unit is active; nothing in compact mode. -/
def jsonNl (u : Option Chars) (g : Chars) : Chars :=
  match u with
  | none => []
  | some _ => '\n' :: g

/-- The key-value separator: a bare colon in compact mode, colon and one
space in indented mode. -/
def jsonColon (u : Option Chars) : Chars :=
  match u with
  | none => [':']
  | some _ => [':', ' ']

/-- The indentation of the children of a bracketed value. -/
def childGap (u : Option Chars) (g : Chars) : Chars :=
  match u with
  | none => []
  | some unit => g ++ unit

mutual

/-- The text the JSON stringify builtin produces for a value, at gap g,
with optional indentation unit u; compact when u is none. -/
def printJson (u : Option Chars) (g : Chars) : Json → Chars
  | .null => nullChars
  | .bool b => if b then trueChars else falseChars
  | .num n => intChars n
  | .str s => quoteStr s.data
  | .arr [] => ['[', ']']
  | .arr (x :: xs) =>
    '[' :: (jsonNl u (childGap u g) ++ printJson u (childGap u g) x
      ++ printArrTail u (childGap u g) xs ++ jsonNl u g ++ [']'])
  | .obj [] => ['{', '}']
  | .obj (f :: fs) =>
    '{' :: (jsonNl u (childGap u g) ++ printField u (childGap u g) f
      ++ printObjTail u (childGap u g) fs ++ jsonNl u g ++ ['}'])

/-- One object member: quoted key, separator, value. -/
def printField (u : Option Chars) (g : Chars) : String × Json → Chars
  | (k, v) => quoteStr k.data ++ jsonColon u ++ printJson u g v

/-- The members of an array after the first, each preceded by a comma. -/
def printArrTail (u : Option Chars) (g : Chars) : List Json → Chars
  | [] => []
  | x :: xs => ',' :: (jsonNl u g ++ printJson u g x ++ printArrTail u g xs)

/-- The members of an object after the first, each preceded by a comma. -/
def printObjTail (u : Option Chars) (g : Chars) : List (String × Json) → Chars
  | [] => []
  | f :: fs => ',' :: (jsonNl u g ++ printField u g f ++ printObjTail u g fs)

end

/-- Compact serialization, JSON stringify of the value alone. -/
def stringifyCompact (v : Json) : String := String.mk (printJson none [] v)

/-- Readable serialization, JSON stringify with a two-space indent, the
form put uses under its formatForReadability option. -/
def stringifyPretty (v : Json) : String := String.mk (printJson (some [' ', ' ']) [] v)

/-! ## The JSON parse builtin, as a recursive descent parser -/

/-- The insignificant whitespace characters of JSON. -/
def isJsonWs (c : Char) : Bool :=
  c = ' ' || c = '\n' || c = '\t' || c = '\r'

def skipWs (s : Chars) : Chars := s.dropWhile isJsonWs

/-- Value of a hexadecimal digit character. -/
def hexVal (c : Char) : Option Nat :=
  if '0' ≤ c ∧ c ≤ '9' then some (c.toNat - 48)
  else if 'a' ≤ c ∧ c ≤ 'f' then some (c.toNat - 87)
  else if 'A' ≤ c ∧ c ≤ 'F' then some (c.toNat - 55)
  else none

/-- The character named by a single-letter escape. -/
def unescChar (c : Char) : Option Char :=
  if c = '"' then some '"'
  else if c = '\\' then some '\\'
  else if c = '/' then some '/'
  else if c = 'b' then some (Char.ofNat 8)
  else if c = 't' then some (Char.ofNat 9)
  else if c = 'n' then some (Char.ofNat 10)
  else if c = 'f' then some (Char.ofNat 12)
  else if c = 'r' then some (Char.ofNat 13)
  else none

/-- Parse the body of a string literal after its opening quote, up to and
including the closing quote; raw control characters are rejected. -/
def parseStrBody : Chars → Option (Chars × Chars)
  | [] => none
  | c :: cs =>
    if c = '"' then some ([], cs)
    else if c = '\\' then
      match cs with
      | [] => none
      | e :: cs2 =>
        if e = 'u' then
          match cs2 with
          | h1 :: h2 :: h3 :: h4 :: cs3 =>
            match hexVal h1, hexVal h2, hexVal h3, hexVal h4 with
            | some a, some b, some c2, some d =>
              match parseStrBody cs3 with
              | some (body, rest) =>
                some (Char.ofNat (((a * 16 + b) * 16 + c2) * 16 + d) :: body, rest)
              | none => none
            | _, _, _, _ => none
          | _ => none
        else
          match unescChar e with
          | some w =>
            match parseStrBody cs2 with
            | some (body, rest) => some (w :: body, rest)
            | none => none
          | none => none
    else if c.toNat < 32 then none
    else
      match parseStrBody cs with
      | some (body, rest) => some (c :: body, rest)
      | none => none

/-- Numeric value of a decimal digit character. -/
def charDigit (c : Char) : Option Nat :=
  if '0' ≤ c ∧ c ≤ '9' then some (c.toNat - 48) else none

/-- Consume a maximal run of decimal digits. -/
def takeDigits : Chars → List Nat × Chars
  | [] => ([], [])
  | c :: cs =>
    match charDigit c with
    | some d =>
      match takeDigits cs with
      | (ds, rest) => (d :: ds, rest)
    | none => ([], c :: cs)

def digitsVal (ds : List Nat) : Nat := ds.foldl (fun a d => a * 10 + d) 0

/-- Parse an integer numeral, an optional minus sign followed by at least
one digit. -/
def parseNumChars : Chars → Option (Int × Chars)
  | [] => none
  | c :: cs =>
    if c = '-' then
      match takeDigits cs with
      | ([], _) => none
      | (ds, rest) => some (-(digitsVal ds : Int), rest)
    else
      match takeDigits (c :: cs) with
      | ([], _) => none
      | (ds, rest) => some ((digitsVal ds : Int), rest)

mutual

/-- Parse one JSON value after skipping whitespace. The fuel argument
bounds the nesting depth; every recursive call decrements it. -/
def parseVal : Nat → Chars → Option (Json × Chars)
  | 0, _ => none
  | fuel + 1, s =>
    match skipWs s with
    | [] => none
    | c :: rest =>
      if c = '"' then
        match parseStrBody rest with
        | some (body, r) => some (.str (String.mk body), r)
        | none => none
      else if c = '[' then
        match skipWs rest with
        | [] => none
        | c2 :: r =>
          if c2 = ']' then some (.arr [], r)
          else
            match parseVal fuel rest with
            | some (v, r1) =>
              match parseArrItems fuel r1 with
              | some (vs, r2) => some (.arr (v :: vs), r2)
              | none => none
            | none => none
      else if c = '{' then
        match skipWs rest with
        | [] => none
        | c2 :: r =>
          if c2 = '}' then some (.obj [], r)
          else
            match parseObjField fuel rest with
            | some (kv, r1) =>
              match parseObjItems fuel r1 with
              | some (kvs, r2) => some (.obj (kv :: kvs), r2)
              | none => none
            | none => none
      else if c = 'n' then
        match rest with
        | 'u' :: 'l' :: 'l' :: r => some (.null, r)
        | _ => none
      else if c = 't' then
        match rest with
        | 'r' :: 'u' :: 'e' :: r => some (.bool true, r)
        | _ => none
      else if c = 'f' then
        match rest with
        | 'a' :: 'l' :: 's' :: 'e' :: r => some (.bool false, r)
        | _ => none
      else
        match parseNumChars (c :: rest) with
        | some (n, r) => some (.num n, r)
        | none => none

/-- After one array member: a comma and a further member, or the closing
bracket. -/
def parseArrItems : Nat → Chars → Option (List Json × Chars)
  | 0, _ => none
  | fuel + 1, s =>
    match skipWs s with
    | [] => none
    | c :: r =>
      if c = ']' then some ([], r)
      else if c = ',' then
        match parseVal fuel r with
        | some (v, r1) =>
          match parseArrItems fuel r1 with
          | some (vs, r2) => some (v :: vs, r2)
          | none => none
        | none => none
      else none

/-- One object member: quoted key, colon, value. -/
def parseObjField : Nat → Chars → Option ((String × Json) × Chars)
  | 0, _ => none
  | fuel + 1, s =>
    match skipWs s with
    | [] => none
    | c :: r =>
      if c = '"' then
        match parseStrBody r with
        | some (key, r1) =>
          match skipWs r1 with
          | [] => none
          | c2 :: r2 =>
            if c2 = ':' then
              match parseVal fuel r2 with
              | some (v, r3) => some ((String.mk key, v), r3)
              | none => none
            else none
        | none => none
      else none

/-- After one object member: a comma and a further member, or the closing
brace. -/
def parseObjItems : Nat → Chars → Option (List (String × Json) × Chars)
  | 0, _ => none
  | fuel + 1, s =>
    match skipWs s with
    | [] => none
    | c :: r =>
      if c = '}' then some ([], r)
      else if c = ',' then
        match parseObjField fuel r with
        | some (kv, r1) =>
          match parseObjItems fuel r1 with
          | some (kvs, r2) => some (kv :: kvs, r2)
          | none => none
        | none => none
      else none

end

/-- The JSON parse builtin: parse one value, demand that only whitespace
follows, fail otherwise. The fuel exceeds the node count of any value whose
text fits in the input. -/
def parseJson (s : String) : Option Json :=
  match parseVal (s.data.length + 1) s.data with
  | some (v, rest) => if skipWs rest = [] then some v else none
  | none => none

/-! ## Round trip: whitespace and character lemmas -/

/-- Every character of the list is JSON whitespace. -/
def WsOnly (l : Chars) : Prop := ∀ c ∈ l, isJsonWs c = true

/-- The list is empty or starts with a non-digit, so that a maximal digit
run ending right before it is not extended. -/
def headNotDigit : Chars → Prop
  | [] => True
  | c :: _ => charDigit c = none

theorem wsOnly_nil : WsOnly [] := by
  intro c hc
  simp at hc

theorem skipWs_cons_not (c : Char) (s : Chars) (h : isJsonWs c = false) :
    skipWs (c :: s) = c :: s := by
  simp [skipWs, List.dropWhile_cons, h]

theorem skipWs_append_ws (w s : Chars) (hw : WsOnly w) :
    skipWs (w ++ s) = skipWs s := by
  simp [skipWs]
  exact List.dropWhile_append_of_pos hw

theorem parseVal_ws_append (fuel : Nat) (w s : Chars) (hw : WsOnly w) :
    parseVal fuel (w ++ s) = parseVal fuel s := by
  cases fuel with
  | zero => rfl
  | succ fuel =>
    simp only [parseVal]
    rw [skipWs_append_ws w s hw]

theorem ws_not_digit (c : Char) (h : isJsonWs c = true) : charDigit c = none := by
  simp only [isJsonWs, Bool.or_eq_true, decide_eq_true_eq] at h
  rcases h with ((h | h) | h) | h <;> subst h <;> decide

theorem headNotDigit_of_skipWs (t : Chars) (c : Char) (r : Chars)
    (h : skipWs t = c :: r) (hc : charDigit c = none) : headNotDigit t := by
  cases t with
  | nil => trivial
  | cons c0 t0 =>
    by_cases hws : isJsonWs c0 = true
    · exact ws_not_digit c0 hws
    · have hne : isJsonWs c0 = false := by
        cases hb : isJsonWs c0 with
        | false => rfl
        | true => exact absurd hb hws
      rw [skipWs_cons_not c0 t0 hne] at h
      have : c0 = c := by
        injection h with h1 _
      show charDigit c0 = none
      rw [this]
      exact hc

theorem digitChar_facts (d : Nat) (h : d < 10) :
    isJsonWs (digitChar d) = false ∧ digitChar d ≠ '"' ∧ digitChar d ≠ '[' ∧
    digitChar d ≠ '{' ∧ digitChar d ≠ 'n' ∧ digitChar d ≠ 't' ∧
    digitChar d ≠ 'f' ∧ digitChar d ≠ '-' ∧ digitChar d ≠ ']' ∧
    digitChar d ≠ '}' ∧ charDigit (digitChar d) = some d := by
  interval_cases d <;> exact (by decide)

/-! ## Round trip: decimal numerals -/

theorem natDigitsAux_acc :
    ∀ (n fuel : Nat) (acc : List Nat), n < fuel →
      natDigitsAux fuel n acc = natDigits n ++ acc := by
  intro n
  induction n using Nat.strong_induction_on with
  | _ n ih =>
    intro fuel acc hlt
    match fuel, hlt with
    | fuel + 1, _ =>
      by_cases h10 : n < 10
      · simp [natDigitsAux, natDigits, h10]
      · have hdiv_n : n / 10 < n := Nat.div_lt_self (by omega) (by omega)
        have hdiv_fuel : n / 10 < fuel := by omega
        have hstep : natDigitsAux (fuel + 1) n acc
            = natDigitsAux fuel (n / 10) (n % 10 :: acc) := by
          simp [natDigitsAux, h10]
        have hself : natDigits n = natDigits (n / 10) ++ [n % 10] := by
          have h1 : natDigits n = natDigitsAux n (n / 10) [n % 10] := by
            simp [natDigits, natDigitsAux, h10]
          rw [h1, ih (n / 10) hdiv_n n [n % 10] (by omega)]
        rw [hstep, ih (n / 10) hdiv_n fuel (n % 10 :: acc) hdiv_fuel, hself]
        simp

theorem natDigits_base (n : Nat) (h : n < 10) : natDigits n = [n] := by
  simp [natDigits, natDigitsAux, h]

theorem natDigits_step (n : Nat) (h : ¬ n < 10) :
    natDigits n = natDigits (n / 10) ++ [n % 10] := by
  have h1 : natDigits n = natDigitsAux n (n / 10) [n % 10] := by
    simp [natDigits, natDigitsAux, h]
  rw [h1, natDigitsAux_acc (n / 10) n [n % 10]
    (Nat.div_lt_self (by omega) (by omega))]

theorem natDigits_lt10 : ∀ (n : Nat), ∀ d ∈ natDigits n, d < 10 := by
  intro n
  induction n using Nat.strong_induction_on with
  | _ n ih =>
    by_cases h10 : n < 10
    · rw [natDigits_base n h10]
      intro d hd
      simp at hd
      omega
    · rw [natDigits_step n h10]
      intro d hd
      rcases List.mem_append.mp hd with h | h
      · exact ih (n / 10) (Nat.div_lt_self (by omega) (by omega)) d h
      · simp at h
        omega

theorem natDigits_ne_nil (n : Nat) : natDigits n ≠ [] := by
  by_cases h10 : n < 10
  · rw [natDigits_base n h10]
    simp
  · rw [natDigits_step n h10]
    simp

theorem digitsVal_append_single (ds : List Nat) (d : Nat) :
    digitsVal (ds ++ [d]) = digitsVal ds * 10 + d := by
  simp [digitsVal, List.foldl_append]

theorem digitsVal_natDigits : ∀ (n : Nat), digitsVal (natDigits n) = n := by
  intro n
  induction n using Nat.strong_induction_on with
  | _ n ih =>
    by_cases h10 : n < 10
    · rw [natDigits_base n h10]
      simp [digitsVal]
    · rw [natDigits_step n h10, digitsVal_append_single,
        ih (n / 10) (Nat.div_lt_self (by omega) (by omega))]
      omega

theorem takeDigits_notdigit (s : Chars) (h : headNotDigit s) :
    takeDigits s = ([], s) := by
  cases s with
  | nil => rfl
  | cons c cs =>
    have hc : charDigit c = none := h
    simp [takeDigits, hc]

theorem takeDigits_digits :
    ∀ (ds : List Nat) (rest : Chars), (∀ d ∈ ds, d < 10) → headNotDigit rest →
      takeDigits (ds.map digitChar ++ rest) = (ds, rest) := by
  intro ds
  induction ds with
  | nil =>
    intro rest _ hr
    simpa using takeDigits_notdigit rest hr
  | cons d ds ih =>
    intro rest hds hr
    have hd : d < 10 := hds d (by simp)
    have hcd : charDigit (digitChar d) = some d := (digitChar_facts d hd).2.2.2.2.2.2.2.2.2.2
    have ihr := ih rest (fun x hx => hds x (by simp [hx])) hr
    simp only [List.map_cons, List.cons_append, takeDigits, hcd, List.append_eq, ihr]

theorem takeDigits_natChars (m : Nat) (rest : Chars) (hr : headNotDigit rest) :
    takeDigits (natChars m ++ rest) = (natDigits m, rest) := by
  rw [natChars]
  exact takeDigits_digits (natDigits m) rest (natDigits_lt10 m) hr

theorem parseNum_intChars (n : Int) (rest : Chars) (hr : headNotDigit rest) :
    parseNumChars (intChars n ++ rest) = some (n, rest) := by
  by_cases hneg : n < 0
  · obtain ⟨d, ds, hds⟩ : ∃ d ds, natDigits n.natAbs = d :: ds := by
      cases hnd : natDigits n.natAbs with
      | nil => exact absurd hnd (natDigits_ne_nil _)
      | cons d ds => exact ⟨d, ds, rfl⟩
    have htake : takeDigits (natChars n.natAbs ++ rest) = (d :: ds, rest) := by
      rw [takeDigits_natChars n.natAbs rest hr, hds]
    have hval : digitsVal (natDigits n.natAbs) = n.natAbs := digitsVal_natDigits _
    have hvz : -((digitsVal (d :: ds) : Nat) : Int) = n := by
      rw [← hds, hval]
      omega
    have hform : intChars n ++ rest = '-' :: (natChars n.natAbs ++ rest) := by
      simp [intChars, if_pos hneg]
    rw [hform]
    simp only [parseNumChars, if_pos rfl, htake]
    simp [hvz]
  · obtain ⟨d, ds, hds⟩ : ∃ d ds, natDigits n.toNat = d :: ds := by
      cases hnd : natDigits n.toNat with
      | nil => exact absurd hnd (natDigits_ne_nil _)
      | cons d ds => exact ⟨d, ds, rfl⟩
    have htake : takeDigits (natChars n.toNat ++ rest) = (d :: ds, rest) := by
      rw [takeDigits_natChars n.toNat rest hr, hds]
    have hd10 : d < 10 := natDigits_lt10 n.toNat d (by rw [hds]; simp)
    have hval : digitsVal (natDigits n.toNat) = n.toNat := digitsVal_natDigits _
    have hvz : ((digitsVal (d :: ds) : Nat) : Int) = n := by
      rw [← hds, hval]
      omega
    have hform : intChars n ++ rest = digitChar d :: (ds.map digitChar ++ rest) := by
      simp only [intChars, if_neg hneg, natChars, hds]
      simp
    have hnotminus : digitChar d ≠ '-' := (digitChar_facts d hd10).2.2.2.2.2.2.2.1
    have hrecover : digitChar d :: (ds.map digitChar ++ rest) = natChars n.toNat ++ rest := by
      rw [natChars, hds]
      simp
    rw [hform]
    simp only [parseNumChars, if_neg hnotminus, hrecover, htake]
    simp [hvz]

/-! ## Round trip: string escapes -/

theorem hexVal_hexDigitChar (m : Nat) (h : m < 16) : hexVal (hexDigitChar m) = some m := by
  interval_cases m <;> decide

theorem parseStrBody_named (c e : Char) (cs rest : Chars) (he : e ≠ 'u')
    (hu : unescChar e = some c)
    (ih : parseStrBody (escStr cs ++ '"' :: rest) = some (cs, rest)) :
    parseStrBody ('\\' :: e :: (escStr cs ++ '"' :: rest)) = some (c :: cs, rest) := by
  rw [parseStrBody.eq_def]
  simp [he, hu, ih]

theorem parseStrBody_esc :
    ∀ (s rest : Chars), parseStrBody (escStr s ++ '"' :: rest) = some (s, rest) := by
  intro s
  induction s with
  | nil =>
    intro rest
    show parseStrBody (([] : Chars) ++ '"' :: rest) = some ([], rest)
    rw [List.nil_append, parseStrBody.eq_def]
    simp
  | cons c cs ih =>
    intro rest
    by_cases hq : c = '"'
    · subst hq
      have hform : escStr ('"' :: cs) ++ '"' :: rest
          = '\\' :: '"' :: (escStr cs ++ '"' :: rest) := by
        simp [escStr, escChar]
      rw [hform]
      exact parseStrBody_named _ _ _ _ (by decide) (by decide) (ih rest)
    · by_cases hbs : c = '\\'
      · subst hbs
        have hform : escStr ('\\' :: cs) ++ '"' :: rest
            = '\\' :: '\\' :: (escStr cs ++ '"' :: rest) := by
          simp [escStr, escChar]
        rw [hform]
        exact parseStrBody_named _ _ _ _ (by decide) (by decide) (ih rest)
      · by_cases h8 : c = Char.ofNat 8
        · subst h8
          have hform : escStr (Char.ofNat 8 :: cs) ++ '"' :: rest
              = '\\' :: 'b' :: (escStr cs ++ '"' :: rest) := by
            simp [escStr, escChar]
          rw [hform]
          exact parseStrBody_named _ _ _ _ (by decide) (by decide) (ih rest)
        · by_cases h9 : c = Char.ofNat 9
          · subst h9
            have hform : escStr (Char.ofNat 9 :: cs) ++ '"' :: rest
                = '\\' :: 't' :: (escStr cs ++ '"' :: rest) := by
              simp [escStr, escChar]
            rw [hform]
            exact parseStrBody_named _ _ _ _ (by decide) (by decide) (ih rest)
          · by_cases h10 : c = Char.ofNat 10
            · subst h10
              have hform : escStr (Char.ofNat 10 :: cs) ++ '"' :: rest
                  = '\\' :: 'n' :: (escStr cs ++ '"' :: rest) := by
                simp [escStr, escChar]
              rw [hform]
              exact parseStrBody_named _ _ _ _ (by decide) (by decide) (ih rest)
            · by_cases h12 : c = Char.ofNat 12
              · subst h12
                have hform : escStr (Char.ofNat 12 :: cs) ++ '"' :: rest
                    = '\\' :: 'f' :: (escStr cs ++ '"' :: rest) := by
                  simp [escStr, escChar]
                rw [hform]
                exact parseStrBody_named _ _ _ _ (by decide) (by decide) (ih rest)
              · by_cases h13 : c = Char.ofNat 13
                · subst h13
                  have hform : escStr (Char.ofNat 13 :: cs) ++ '"' :: rest
                      = '\\' :: 'r' :: (escStr cs ++ '"' :: rest) := by
                    simp [escStr, escChar]
                  rw [hform]
                  exact parseStrBody_named _ _ _ _ (by decide) (by decide) (ih rest)
                · by_cases hctl : c.toNat < 32
                  · have hform : escStr (c :: cs) ++ '"' :: rest
                        = '\\' :: 'u' :: '0' :: '0' :: hexDigitChar (c.toNat / 16)
                          :: hexDigitChar (c.toNat % 16) :: (escStr cs ++ '"' :: rest) := by
                      simp [escStr, escChar, hq, hbs, h8, h9, h10, h12, h13, hctl, uEscape]
                    have hhi : hexVal (hexDigitChar (c.toNat / 16)) = some (c.toNat / 16) :=
                      hexVal_hexDigitChar _ (by omega)
                    have hlo : hexVal (hexDigitChar (c.toNat % 16)) = some (c.toNat % 16) :=
                      hexVal_hexDigitChar _ (by omega)
                    rw [hform, parseStrBody.eq_def]
                    simp [hhi, hlo, ih rest, show hexVal '0' = some 0 by decide]
                    rw [show c.toNat / 16 * 16 + c.toNat % 16 = c.toNat by omega,
                      Char.ofNat_toNat]
                  · have hform : escStr (c :: cs) ++ '"' :: rest
                        = c :: (escStr cs ++ '"' :: rest) := by
                      simp [escStr, escChar, hq, hbs, h8, h9, h10, h12, h13, hctl]
                    rw [hform, parseStrBody.eq_def]
                    simp [hq, hbs, hctl, ih rest]

/-! ## Round trip: node counts and printed shapes -/

mutual

/-- Node count of a value, the fuel a parse of its text needs. -/
def jsize : Json → Nat
  | .null => 1
  | .bool _ => 1
  | .num _ => 1
  | .str _ => 1
  | .arr xs => 1 + jsizeList xs
  | .obj fs => 1 + jsizeFields fs

def jsizeList : List Json → Nat
  | [] => 0
  | x :: xs => 1 + jsize x + jsizeList xs

def jsizeFields : List (String × Json) → Nat
  | [] => 0
  | (_, v) :: fs => 1 + jsize v + jsizeFields fs

end

theorem jsize_pos (v : Json) : 1 ≤ jsize v := by
  cases v <;> simp [jsize]

/-- The indentation unit, when active, is whitespace; the two-space unit of
the readable format satisfies this. -/
def UnitOk : Option Chars → Prop
  | none => True
  | some unit => WsOnly unit

theorem wsOnly_append (a b : Chars) (ha : WsOnly a) (hb : WsOnly b) : WsOnly (a ++ b) := by
  intro c hc
  cases List.mem_append.mp hc with
  | inl hmem => exact ha c hmem
  | inr hmem => exact hb c hmem

theorem wsOnly_jsonNl (u : Option Chars) (g : Chars) (hg : WsOnly g) : WsOnly (jsonNl u g) := by
  cases u with
  | none =>
    intro c hc
    simp [jsonNl] at hc
  | some unit =>
    intro c hc
    simp [jsonNl] at hc
    rcases hc with h | h
    · subst h
      decide
    · exact hg c h

theorem wsOnly_childGap (u : Option Chars) (g : Chars) (hu : UnitOk u) (hg : WsOnly g) :
    WsOnly (childGap u g) := by
  cases u with
  | none =>
    intro c hc
    simp [childGap] at hc
  | some unit =>
    exact wsOnly_append g unit hg hu

theorem intChars_head (n : Int) :
    ∃ c cs, intChars n = c :: cs ∧ isJsonWs c = false ∧ c ≠ '"' ∧ c ≠ '[' ∧
      c ≠ '{' ∧ c ≠ 'n' ∧ c ≠ 't' ∧ c ≠ 'f' ∧ c ≠ ']' ∧ c ≠ '}' := by
  by_cases hneg : n < 0
  · refine ⟨'-', natChars n.natAbs, ?_, by decide, by decide, by decide, by decide,
      by decide, by decide, by decide, by decide, by decide⟩
    simp [intChars, hneg]
  · obtain ⟨d, ds, hds⟩ : ∃ d ds, natDigits n.toNat = d :: ds := by
      cases hnd : natDigits n.toNat with
      | nil => exact absurd hnd (natDigits_ne_nil _)
      | cons d ds => exact ⟨d, ds, rfl⟩
    have hd10 : d < 10 := natDigits_lt10 n.toNat d (by rw [hds]; simp)
    obtain ⟨f1, f2, f3, f4, f5, f6, f7, _, f9, f10, _⟩ := digitChar_facts d hd10
    refine ⟨digitChar d, ds.map digitChar, ?_, f1, f2, f3, f4, f5, f6, f7, f9, f10⟩
    simp [intChars, hneg, natChars, hds]

theorem printJson_shape (u : Option Chars) (g : Chars) (v : Json) :
    ∃ c cs, printJson u g v = c :: cs ∧ isJsonWs c = false ∧ c ≠ ']' ∧ c ≠ '}' := by
  cases v with
  | null =>
    exact ⟨'n', ['u', 'l', 'l'], by simp [printJson, nullChars], by decide, by decide, by decide⟩
  | bool b =>
    cases b with
    | true =>
      exact ⟨'t', ['r', 'u', 'e'], by simp [printJson, trueChars], by decide, by decide,
        by decide⟩
    | false =>
      exact ⟨'f', ['a', 'l', 's', 'e'], by simp [printJson, falseChars], by decide, by decide,
        by decide⟩
  | num n =>
    obtain ⟨c, cs, h, hws, _, _, _, _, _, _, hrb, hcb⟩ := intChars_head n
    exact ⟨c, cs, by simp [printJson, h], hws, hrb, hcb⟩
  | str s =>
    exact ⟨'"', escStr s.data ++ ['"'], by simp [printJson, quoteStr], by decide, by decide,
      by decide⟩
  | arr xs =>
    cases xs with
    | nil => exact ⟨'[', [']'], by simp [printJson], by decide, by decide, by decide⟩
    | cons x xs =>
      exact ⟨'[', jsonNl u (childGap u g) ++ printJson u (childGap u g) x
        ++ printArrTail u (childGap u g) xs ++ jsonNl u g ++ [']'],
        by simp [printJson], by decide, by decide, by decide⟩
  | obj fs =>
    cases fs with
    | nil => exact ⟨'{', ['}'], by simp [printJson], by decide, by decide, by decide⟩
    | cons f fs =>
      exact ⟨'{', jsonNl u (childGap u g) ++ printField u (childGap u g) f
        ++ printObjTail u (childGap u g) fs ++ jsonNl u g ++ ['}'],
        by simp [printJson], by decide, by decide, by decide⟩

theorem skipWs_print (u : Option Chars) (g : Chars) (v : Json) (rest : Chars) :
    skipWs (printJson u g v ++ rest) = printJson u g v ++ rest := by
  obtain ⟨c, cs, h, hws, _, _⟩ := printJson_shape u g v
  rw [h, List.cons_append, skipWs_cons_not _ _ hws]

theorem skipWs_nl_close (u : Option Chars) (g : Chars) (hg : WsOnly g)
    (b : Char) (hb : isJsonWs b = false) (rest : Chars) :
    skipWs (jsonNl u g ++ b :: rest) = b :: rest := by
  rw [skipWs_append_ws _ _ (wsOnly_jsonNl u g hg), skipWs_cons_not _ _ hb]

theorem headNotDigit_nl_close (u : Option Chars) (g : Chars) (b : Char)
    (hb : charDigit b = none) (rest : Chars) :
    headNotDigit (jsonNl u g ++ b :: rest) := by
  cases u with
  | none => exact hb
  | some unit => exact (by decide : charDigit '\n' = none)

theorem headNotDigit_arrTail (u : Option Chars) (g2 : Chars) (xs : List Json)
    (tail : Chars) (htail : headNotDigit tail) :
    headNotDigit (printArrTail u g2 xs ++ tail) := by
  cases xs with
  | nil => simpa [printArrTail] using htail
  | cons x xs => exact (by decide : charDigit ',' = none)

theorem headNotDigit_objTail (u : Option Chars) (g2 : Chars)
    (fs : List (String × Json)) (tail : Chars) (htail : headNotDigit tail) :
    headNotDigit (printObjTail u g2 fs ++ tail) := by
  cases fs with
  | nil => simpa [printObjTail] using htail
  | cons f fs => exact (by decide : charDigit ',' = none)

theorem jsize_arr_cons (x : Json) (xs : List Json) :
    jsize (Json.arr (x :: xs)) = 2 + jsize x + jsizeList xs := by
  simp only [jsize, jsizeList]
  omega

theorem jsize_obj_cons (k : String) (v : Json) (fs : List (String × Json)) :
    jsize (Json.obj ((k, v) :: fs)) = 2 + jsize v + jsizeFields fs := by
  simp only [jsize, jsizeFields]
  omega

theorem jsizeList_cons (x : Json) (xs : List Json) :
    jsizeList (x :: xs) = 1 + jsize x + jsizeList xs := by
  simp only [jsizeList]

theorem jsizeFields_cons (k : String) (v : Json) (fs : List (String × Json)) :
    jsizeFields ((k, v) :: fs) = 1 + jsize v + jsizeFields fs := by
  simp only [jsizeFields]

theorem string_mk_data (s : String) : String.mk s.data = s := rfl

theorem parseObjField_ws_append (fuel : Nat) (w s : Chars) (hw : WsOnly w) :
    parseObjField fuel (w ++ s) = parseObjField fuel s := by
  cases fuel with
  | zero => rfl
  | succ fuel =>
    simp only [parseObjField]
    rw [skipWs_append_ws w s hw]

/-! ## Round trip: the master induction over the parser fuel -/

theorem parse_print_master (fuel : Nat) :
    (∀ (u : Option Chars) (g : Chars) (v : Json) (rest : Chars),
      UnitOk u → WsOnly g → jsize v ≤ fuel → headNotDigit rest →
      parseVal fuel (printJson u g v ++ rest) = some (v, rest)) ∧
    (∀ (u : Option Chars) (g2 : Chars) (xs : List Json) (tail rest : Chars),
      UnitOk u → WsOnly g2 → jsizeList xs < fuel →
      skipWs tail = ']' :: rest → headNotDigit rest →
      parseArrItems fuel (printArrTail u g2 xs ++ tail) = some (xs, rest)) ∧
    (∀ (u : Option Chars) (g2 : Chars) (kv : String × Json) (rest : Chars),
      UnitOk u → WsOnly g2 → jsize kv.2 < fuel → headNotDigit rest →
      parseObjField fuel (printField u g2 kv ++ rest) = some (kv, rest)) ∧
    (∀ (u : Option Chars) (g2 : Chars) (fs : List (String × Json)) (tail rest : Chars),
      UnitOk u → WsOnly g2 → jsizeFields fs < fuel →
      skipWs tail = '}' :: rest → headNotDigit rest →
      parseObjItems fuel (printObjTail u g2 fs ++ tail) = some (fs, rest)) := by
  induction fuel with
  | zero =>
    refine ⟨?_, ?_, ?_, ?_⟩
    · intro u g v rest _ _ hsz _
      have := jsize_pos v
      omega
    · intro u g2 xs tail rest _ _ hsz _ _
      omega
    · intro u g2 kv rest _ _ hsz _
      omega
    · intro u g2 fs tail rest _ _ hsz _ _
      omega
  | succ fuel ih =>
    obtain ⟨ihv, iha, ihf, iho⟩ := ih
    refine ⟨?_, ?_, ?_, ?_⟩
    · intro u g v rest hu hg hsz hrest
      cases v with
      | null =>
        have hp : printJson u g Json.null ++ rest = 'n' :: 'u' :: 'l' :: 'l' :: rest := by
          simp [printJson, nullChars]
        rw [hp, parseVal.eq_2, skipWs_cons_not _ _ (by decide)]
        simp
      | bool b =>
        cases b with
        | true =>
          have hp : printJson u g (Json.bool true) ++ rest
              = 't' :: 'r' :: 'u' :: 'e' :: rest := by
            simp [printJson, trueChars]
          rw [hp, parseVal.eq_2, skipWs_cons_not _ _ (by decide)]
          simp
        | false =>
          have hp : printJson u g (Json.bool false) ++ rest
              = 'f' :: 'a' :: 'l' :: 's' :: 'e' :: rest := by
            simp [printJson, falseChars]
          rw [hp, parseVal.eq_2, skipWs_cons_not _ _ (by decide)]
          simp
      | num n =>
        obtain ⟨c, cs, hic, hws, hq, hlb, hob, hn, ht, hf, _, _⟩ := intChars_head n
        have hp : printJson u g (Json.num n) ++ rest = c :: (cs ++ rest) := by
          simp [printJson, hic]
        have hnum : parseNumChars (c :: (cs ++ rest)) = some (n, rest) := by
          have hback : c :: (cs ++ rest) = intChars n ++ rest := by
            rw [hic]
            simp
          rw [hback]
          exact parseNum_intChars n rest hrest
        rw [hp, parseVal.eq_2, skipWs_cons_not _ _ hws]
        simp [hq, hlb, hob, hn, ht, hf, hnum]
      | str s =>
        have hp : printJson u g (Json.str s) ++ rest
            = '"' :: (escStr s.data ++ '"' :: rest) := by
          simp [printJson, quoteStr]
        rw [hp, parseVal.eq_2, skipWs_cons_not _ _ (by decide)]
        simp [parseStrBody_esc s.data rest, string_mk_data]
      | arr xs =>
        cases xs with
        | nil =>
          have hp : printJson u g (Json.arr []) ++ rest = '[' :: (']' :: rest) := by
            simp [printJson]
          rw [hp, parseVal.eq_2, skipWs_cons_not _ _ (by decide)]
          simp [skipWs_cons_not ']' rest (by decide)]
        | cons x xs =>
          have hws2 : WsOnly (childGap u g) := wsOnly_childGap u g hu hg
          have hp : printJson u g (Json.arr (x :: xs)) ++ rest
              = '[' :: (jsonNl u (childGap u g) ++ (printJson u (childGap u g) x
                ++ (printArrTail u (childGap u g) xs ++ (jsonNl u g ++ (']' :: rest))))) := by
            simp [printJson]
          rw [jsize_arr_cons] at hsz
          have hszx : jsize x ≤ fuel := by
            omega
          have hszxs : jsizeList xs < fuel := by
            have := jsize_pos x
            omega
          have htl : headNotDigit (printArrTail u (childGap u g) xs
              ++ (jsonNl u g ++ (']' :: rest))) :=
            headNotDigit_arrTail u (childGap u g) xs _
              (headNotDigit_nl_close u g ']' (by decide) rest)
          obtain ⟨c1, cs1, hpx, hws1, hrb1, _⟩ := printJson_shape u (childGap u g) x
          have hswc : skipWs (jsonNl u (childGap u g) ++ (printJson u (childGap u g) x
              ++ (printArrTail u (childGap u g) xs ++ (jsonNl u g ++ (']' :: rest)))))
              = c1 :: (cs1 ++ (printArrTail u (childGap u g) xs
                ++ (jsonNl u g ++ (']' :: rest)))) := by
            rw [skipWs_append_ws _ _ (wsOnly_jsonNl u (childGap u g) hws2), skipWs_print,
              hpx, List.cons_append]
          have harg : parseVal fuel (jsonNl u (childGap u g) ++ (printJson u (childGap u g) x
              ++ (printArrTail u (childGap u g) xs ++ (jsonNl u g ++ (']' :: rest)))))
              = some (x, printArrTail u (childGap u g) xs ++ (jsonNl u g ++ (']' :: rest))) := by
            rw [parseVal_ws_append _ _ _ (wsOnly_jsonNl u (childGap u g) hws2)]
            exact ihv u (childGap u g) x _ hu hws2 hszx htl
          have hitems : parseArrItems fuel (printArrTail u (childGap u g) xs
              ++ (jsonNl u g ++ (']' :: rest))) = some (xs, rest) :=
            iha u (childGap u g) xs _ rest hu hws2 hszxs
              (skipWs_nl_close u g hg ']' (by decide) rest) hrest
          rw [hp, parseVal.eq_2, skipWs_cons_not _ _ (by decide)]
          simp [hswc, hrb1, harg, hitems]
      | obj fs =>
        cases fs with
        | nil =>
          have hp : printJson u g (Json.obj []) ++ rest = '{' :: ('}' :: rest) := by
            simp [printJson]
          rw [hp, parseVal.eq_2, skipWs_cons_not _ _ (by decide)]
          simp [skipWs_cons_not '}' rest (by decide)]
        | cons f fs =>
          obtain ⟨k, v⟩ := f
          have hws2 : WsOnly (childGap u g) := wsOnly_childGap u g hu hg
          have hp : printJson u g (Json.obj ((k, v) :: fs)) ++ rest
              = '{' :: (jsonNl u (childGap u g) ++ (printField u (childGap u g) (k, v)
                ++ (printObjTail u (childGap u g) fs ++ (jsonNl u g ++ ('}' :: rest))))) := by
            simp [printJson]
          rw [jsize_obj_cons] at hsz
          have hszv : jsize v < fuel := by
            omega
          have hszfs : jsizeFields fs < fuel := by
            have := jsize_pos v
            omega
          have htl : headNotDigit (printObjTail u (childGap u g) fs
              ++ (jsonNl u g ++ ('}' :: rest))) :=
            headNotDigit_objTail u (childGap u g) fs _
              (headNotDigit_nl_close u g '}' (by decide) rest)
          have hpf : printField u (childGap u g) (k, v)
              = '"' :: (escStr k.data ++ '"' :: (jsonColon u
                ++ printJson u (childGap u g) v)) := by
            simp [printField, quoteStr]
          have hswc : skipWs (jsonNl u (childGap u g) ++ (printField u (childGap u g) (k, v)
              ++ (printObjTail u (childGap u g) fs ++ (jsonNl u g ++ ('}' :: rest)))))
              = '"' :: ((escStr k.data ++ '"' :: (jsonColon u
                  ++ printJson u (childGap u g) v)) ++ (printObjTail u (childGap u g) fs
                  ++ (jsonNl u g ++ ('}' :: rest)))) := by
            rw [skipWs_append_ws _ _ (wsOnly_jsonNl u (childGap u g) hws2), hpf,
              List.cons_append, skipWs_cons_not _ _ (by decide)]
          have harg : parseObjField fuel (jsonNl u (childGap u g)
              ++ (printField u (childGap u g) (k, v)
                ++ (printObjTail u (childGap u g) fs ++ (jsonNl u g ++ ('}' :: rest)))))
              = some ((k, v), printObjTail u (childGap u g) fs
                  ++ (jsonNl u g ++ ('}' :: rest))) := by
            rw [parseObjField_ws_append _ _ _ (wsOnly_jsonNl u (childGap u g) hws2)]
            exact ihf u (childGap u g) (k, v) _ hu hws2 hszv htl
          have hitems : parseObjItems fuel (printObjTail u (childGap u g) fs
              ++ (jsonNl u g ++ ('}' :: rest))) = some (fs, rest) :=
            iho u (childGap u g) fs _ rest hu hws2 hszfs
              (skipWs_nl_close u g hg '}' (by decide) rest) hrest
          rw [hp, parseVal.eq_2, skipWs_cons_not _ _ (by decide)]
          simp [hswc, harg, hitems]
    · intro u g2 xs tail rest hu hg2 hsz hskip hrest
      cases xs with
      | nil =>
        have hp : printArrTail u g2 ([] : List Json) ++ tail = tail := by
          simp [printArrTail]
        rw [hp, parseArrItems.eq_2, hskip]
        simp
      | cons x xs =>
        have hp : printArrTail u g2 (x :: xs) ++ tail
            = ',' :: (jsonNl u g2 ++ (printJson u g2 x ++ (printArrTail u g2 xs ++ tail))) := by
          simp [printArrTail]
        rw [jsizeList_cons] at hsz
        have hszx : jsize x ≤ fuel := by
          omega
        have hszxs : jsizeList xs < fuel := by
          have := jsize_pos x
          omega
        have htl : headNotDigit (printArrTail u g2 xs ++ tail) :=
          headNotDigit_arrTail u g2 xs tail
            (headNotDigit_of_skipWs tail ']' rest hskip (by decide))
        have harg : parseVal fuel (jsonNl u g2 ++ (printJson u g2 x
            ++ (printArrTail u g2 xs ++ tail)))
            = some (x, printArrTail u g2 xs ++ tail) := by
          rw [parseVal_ws_append _ _ _ (wsOnly_jsonNl u g2 hg2)]
          exact ihv u g2 x _ hu hg2 hszx htl
        have hitems : parseArrItems fuel (printArrTail u g2 xs ++ tail) = some (xs, rest) :=
          iha u g2 xs tail rest hu hg2 hszxs hskip hrest
        rw [hp, parseArrItems.eq_2, skipWs_cons_not _ _ (by decide)]
        simp [harg, hitems]
    · intro u g2 kv rest hu hg2 hsz hrest
      obtain ⟨k, v⟩ := kv
      have hszv : jsize v ≤ fuel := by
        simp only at hsz
        omega
      cases u with
      | none =>
        have hp : printField none g2 (k, v) ++ rest
            = '"' :: (escStr k.data ++ '"' :: (':' :: (printJson none g2 v ++ rest))) := by
          simp [printField, quoteStr, jsonColon]
        rw [hp, parseObjField.eq_2, skipWs_cons_not _ _ (by decide)]
        simp [parseStrBody_esc k.data (':' :: (printJson none g2 v ++ rest)),
          skipWs_cons_not ':' (printJson none g2 v ++ rest) (by decide),
          ihv none g2 v rest hu hg2 hszv hrest, string_mk_data]
      | some unit =>
        have hp : printField (some unit) g2 (k, v) ++ rest
            = '"' :: (escStr k.data ++ '"' :: (':' :: (' '
              :: (printJson (some unit) g2 v ++ rest)))) := by
          simp [printField, quoteStr, jsonColon]
        have hsp : parseVal fuel (' ' :: (printJson (some unit) g2 v ++ rest))
            = some (v, rest) := by
          have h2 := parseVal_ws_append fuel [' '] (printJson (some unit) g2 v ++ rest)
            (by intro c hc; simp at hc; subst hc; decide)
          simp only [List.cons_append, List.nil_append] at h2
          rw [h2]
          exact ihv (some unit) g2 v rest hu hg2 hszv hrest
        rw [hp, parseObjField.eq_2, skipWs_cons_not _ _ (by decide)]
        simp [parseStrBody_esc k.data (':' :: (' ' :: (printJson (some unit) g2 v ++ rest))),
          skipWs_cons_not ':' (' ' :: (printJson (some unit) g2 v ++ rest)) (by decide),
          hsp, string_mk_data]
    · intro u g2 fs tail rest hu hg2 hsz hskip hrest
      cases fs with
      | nil =>
        have hp : printObjTail u g2 ([] : List (String × Json)) ++ tail = tail := by
          simp [printObjTail]
        rw [hp, parseObjItems.eq_2, hskip]
        simp
      | cons f fs =>
        obtain ⟨k, v⟩ := f
        have hp : printObjTail u g2 ((k, v) :: fs) ++ tail
            = ',' :: (jsonNl u g2 ++ (printField u g2 (k, v)
              ++ (printObjTail u g2 fs ++ tail))) := by
          simp [printObjTail]
        rw [jsizeFields_cons] at hsz
        have hszv : jsize v < fuel := by
          omega
        have hszfs : jsizeFields fs < fuel := by
          have := jsize_pos v
          omega
        have htl : headNotDigit (printObjTail u g2 fs ++ tail) :=
          headNotDigit_objTail u g2 fs tail
            (headNotDigit_of_skipWs tail '}' rest hskip (by decide))
        have harg : parseObjField fuel (jsonNl u g2 ++ (printField u g2 (k, v)
            ++ (printObjTail u g2 fs ++ tail)))
            = some ((k, v), printObjTail u g2 fs ++ tail) := by
          rw [parseObjField_ws_append _ _ _ (wsOnly_jsonNl u g2 hg2)]
          exact ihf u g2 (k, v) _ hu hg2 hszv htl
        have hitems : parseObjItems fuel (printObjTail u g2 fs ++ tail) = some (fs, rest) :=
          iho u g2 fs tail rest hu hg2 hszfs hskip hrest
        rw [hp, parseObjItems.eq_2, skipWs_cons_not _ _ (by decide)]
        simp [harg, hitems]

/-! ## Round trip: the fuel of the top-level parse suffices -/

theorem jsize_print_bound (N : Nat) :
    (∀ v : Json, sizeOf v ≤ N → ∀ (u : Option Chars) (g : Chars),
      jsize v ≤ (printJson u g v).length) ∧
    (∀ xs : List Json, sizeOf xs ≤ N → ∀ (u : Option Chars) (g : Chars),
      jsizeList xs ≤ (printArrTail u g xs).length) ∧
    (∀ fs : List (String × Json), sizeOf fs ≤ N → ∀ (u : Option Chars) (g : Chars),
      jsizeFields fs ≤ (printObjTail u g fs).length) := by
  induction N with
  | zero =>
    refine ⟨?_, ?_, ?_⟩
    · intro v hv
      cases v <;> simp at hv
    · intro xs hxs
      cases xs <;> simp at hxs
    · intro fs hfs
      cases fs <;> simp at hfs
  | succ N ih =>
    obtain ⟨ihv, ihl, ihf⟩ := ih
    refine ⟨?_, ?_, ?_⟩
    · intro v hv u g
      cases v with
      | null => simp [jsize, printJson, nullChars]
      | bool b => cases b <;> simp [jsize, printJson, trueChars, falseChars]
      | num n =>
        obtain ⟨c, cs, hic, _⟩ := intChars_head n
        simp [jsize, printJson, hic]
      | str s => simp [jsize, printJson, quoteStr]
      | arr xs =>
        cases xs with
        | nil => simp [jsize, jsizeList, printJson]
        | cons x xs =>
          have hsx : sizeOf x ≤ N ∧ sizeOf xs ≤ N := by
            have : sizeOf (Json.arr (x :: xs)) = 1 + (1 + sizeOf x + sizeOf xs) := by
              simp
            rw [this] at hv
            have h1 : 1 ≤ sizeOf x := by
              cases x <;> simp
            omega
          have hx := ihv x hsx.1 u (childGap u g)
          have hxs := ihl xs hsx.2 u (childGap u g)
          rw [jsize_arr_cons]
          have hlen : (printJson u g (Json.arr (x :: xs))).length
              ≥ 2 + (printJson u (childGap u g) x).length
                + (printArrTail u (childGap u g) xs).length := by
            simp [printJson]
            omega
          omega
      | obj fs =>
        cases fs with
        | nil => simp [jsize, jsizeFields, printJson]
        | cons f fs =>
          obtain ⟨k, v⟩ := f
          have hsv : sizeOf v ≤ N ∧ sizeOf fs ≤ N := by
            have : sizeOf (Json.obj ((k, v) :: fs))
                = 1 + (1 + (1 + sizeOf k + sizeOf v) + sizeOf fs) := by
              simp
            rw [this] at hv
            have h1 : 1 ≤ sizeOf v := by
              cases v <;> simp
            omega
          have hx := ihv v hsv.1 u (childGap u g)
          have hfs := ihf fs hsv.2 u (childGap u g)
          rw [jsize_obj_cons]
          have hlen : (printJson u g (Json.obj ((k, v) :: fs))).length
              ≥ 2 + (printJson u (childGap u g) v).length
                + (printObjTail u (childGap u g) fs).length := by
            simp [printJson, printField, quoteStr, jsonColon]
            cases u <;> simp <;> omega
          omega
    · intro xs hxs u g
      cases xs with
      | nil => simp [jsizeList, printArrTail]
      | cons x xs =>
        have hsx : sizeOf x ≤ N ∧ sizeOf xs ≤ N := by
          have : sizeOf (x :: xs) = 1 + sizeOf x + sizeOf xs := by
            simp
          rw [this] at hxs
          have h1 : 1 ≤ sizeOf x := by
            cases x <;> simp
          have h2 : 1 ≤ sizeOf xs := by
            cases xs with
            | nil => simp
            | cons a b =>
              simp
              omega
          omega
        have hx := ihv x hsx.1 u g
        have hrest := ihl xs hsx.2 u g
        rw [jsizeList_cons]
        have hlen : (printArrTail u g (x :: xs)).length
            ≥ 1 + (printJson u g x).length + (printArrTail u g xs).length := by
          simp [printArrTail]
          omega
        omega
    · intro fs hfs u g
      cases fs with
      | nil => simp [jsizeFields, printObjTail]
      | cons f fs =>
        obtain ⟨k, v⟩ := f
        have hsv : sizeOf v ≤ N ∧ sizeOf fs ≤ N := by
          have : sizeOf ((k, v) :: fs) = 1 + (1 + sizeOf k + sizeOf v) + sizeOf fs := by
            simp
          rw [this] at hfs
          have h1 : 1 ≤ sizeOf v := by
            cases v <;> simp
          have h2 : 1 ≤ sizeOf fs := by
            cases fs with
            | nil => simp
            | cons a b =>
              simp
              omega
          omega
        have hx := ihv v hsv.1 u g
        have hrest := ihf fs hsv.2 u g
        rw [jsizeFields_cons]
        have hlen : (printObjTail u g ((k, v) :: fs)).length
            ≥ 1 + (printJson u g v).length + (printObjTail u g fs).length := by
          simp [printObjTail, printField, quoteStr, jsonColon]
          cases u <;> simp <;> omega
        omega

/-! ## Round trip: top-level statements -/

theorem parseJson_print (v : Json) (u : Option Chars) (hu : UnitOk u) :
    parseJson (String.mk (printJson u [] v)) = some v := by
  have hdata : (String.mk (printJson u [] v)).data = printJson u [] v := rfl
  have hbound : jsize v ≤ (printJson u [] v).length + 1 := by
    have := (jsize_print_bound (sizeOf v)).1 v (le_refl _) u []
    omega
  have hrt := (parse_print_master ((printJson u [] v).length + 1)).1 u [] v []
    hu wsOnly_nil hbound trivial
  rw [List.append_nil] at hrt
  unfold parseJson
  rw [hdata, hrt]
  simp [skipWs]

/-- The compact serialization parses back to the value it was printed
from. -/
theorem parseJson_stringifyCompact (v : Json) : parseJson (stringifyCompact v) = some v :=
  parseJson_print v none trivial

/-- The two-space indented serialization parses back to the value it was
printed from. -/
theorem parseJson_stringifyPretty (v : Json) : parseJson (stringifyPretty v) = some v :=
  parseJson_print v (some [' ', ' ']) (by
    intro c hc
    simp at hc
    subst hc
    decide)

/-! ## Document operations of the store -/

structure GetOptions where
  returnNullIfNotFound : Bool
deriving DecidableEq, Repr

/-- Errors a get can surface: the backend NoSuchKey error for an absent
key, a parse failure on the retrieved bytes, or any other backend error
code. The constructors are distinct, so the conditions are never
conflated. -/
inductive GetErr where
  | noSuchKey
  | parseError
  | backendCode (code : String)
deriving DecidableEq, Repr

/-- The put operation of src/index.js: normalize the key, serialize the
document compactly or readably as the formatForReadability option says,
and upload the body to the fully qualified path, overwriting
unconditionally. -/
def put (pfx key : String) (data : Json) (formatForReadability : Bool)
    (st : S3State) : S3State :=
  let body := if formatForReadability then stringifyPretty data else stringifyCompact data
  insertS3 (docPath pfx key) body st

/-- The get operation of src/index.js: fetch the object at the fully
qualified path and parse it. When the backend reports the key missing,
return null under the returnNullIfNotFound option, otherwise rethrow the
NoSuchKey error; a parse failure surfaces as a distinct error. -/
def get (pfx key : String) (opts : GetOptions) (st : S3State) :
    Except GetErr (Option Json) :=
  match lookupS3 (docPath pfx key) st with
  | none => if opts.returnNullIfNotFound then .ok none else .error .noSuchKey
  | some body =>
    match parseJson body with
    | some v => .ok (some v)
    | none => .error .parseError

/-- JS object field access: the value of the first binding of the key. -/
def lookupField (key : String) : List (String × Json) → Option Json
  | [] => none
  | (k, v) :: rest => if k = key then some v else lookupField key rest

/-- The JS object spread of p over m: every binding of m keeps its
position, bindings whose key also occurs in p take the value from p, and
the bindings of p with fresh keys are appended in their order. -/
def jsMerge (m p : List (String × Json)) : List (String × Json) :=
  m.map (fun kv =>
    match lookupField kv.1 p with
    | some v => (kv.1, v)
    | none => kv)
  ++ p.filter (fun kv => (lookupField kv.1 m).isNone)

/-- The spread expression of update applied to the parsed existing
document: for a mapping it is the shallow merge. Spreading a non-mapping
scalar contributes no fields; a stored string or array would contribute
index keys, a case the update claim does not exercise. -/
def jsSpread (existing : Json) (p : List (String × Json)) : Json :=
  match existing with
  | .obj m => .obj (jsMerge m p)
  | _ => .obj p

/-- The update operation of src/index.js: read the current document with
get and no recovery option, spread the new fields over it, write the
result back with put in compact form to the same fully qualified path. The
null branch is unreachable because get without the option never returns
null. -/
def update (pfx key : String) (newData : List (String × Json)) (st : S3State) :
    Except GetErr S3State :=
  match get pfx key ⟨false⟩ st with
  | .error e => .error e
  | .ok none => .error .noSuchKey
  | .ok (some existing) => .ok (put pfx key (jsSpread existing newData) false st)

/-! ## Claims about document access -/

/-- C4: for every document and key, get after put on the same store
returns the stored document, whichever serialization the put used and
whatever get options are in force. -/
theorem C4_put_get_roundtrip :
    ∀ (pfx key : String) (d : Json) (pretty : Bool) (opts : GetOptions) (st : S3State),
      get pfx key opts (put pfx key d pretty st) = .ok (some d) := by
  intro pfx key d pretty opts st
  cases pretty with
  | true => simp [put, get, lookupS3_insertS3_self, parseJson_stringifyPretty]
  | false => simp [put, get, lookupS3_insertS3_self, parseJson_stringifyCompact]

/-- C5: for a key absent from the backend, get with the
returnNullIfNotFound option returns null without failing, get without the
option fails with the NoSuchKey classification, and that classification is
distinct from parse errors and from any other backend error code. -/
theorem C5_get_not_found :
    ∀ (pfx key : String) (st : S3State),
      lookupS3 (docPath pfx key) st = none →
      get pfx key ⟨true⟩ st = .ok none ∧
      get pfx key ⟨false⟩ st = .error .noSuchKey ∧
      GetErr.noSuchKey ≠ GetErr.parseError ∧
      ∀ code, GetErr.noSuchKey ≠ GetErr.backendCode code := by
  intro pfx key st h
  refine ⟨?_, ?_, by decide, ?_⟩
  · simp [get, h]
  · simp [get, h]
  · intro code hcon
    exact GetErr.noConfusion hcon

/-- C5 witness: getting a missing key from the empty bucket. -/
theorem C5_get_not_found_witness :
    get "users" "nonexistent" ⟨true⟩ [] = .ok none ∧
    get "users" "nonexistent" ⟨false⟩ [] = .error .noSuchKey :=
  ⟨(C5_get_not_found "users" "nonexistent" [] rfl).1,
   (C5_get_not_found "users" "nonexistent" [] rfl).2.1⟩

/-! ## Shallow merge lemmas for update -/

theorem lookupField_append (key : String) (a b : List (String × Json)) :
    lookupField key (a ++ b)
      = match lookupField key a with
        | some v => some v
        | none => lookupField key b := by
  induction a with
  | nil => simp [lookupField]
  | cons kv a ih =>
    obtain ⟨k, v⟩ := kv
    by_cases hk : k = key
    · simp [lookupField, hk]
    · simp [lookupField, hk, ih]

theorem lookupField_override (key : String) (m p : List (String × Json)) :
    lookupField key (m.map (fun kv =>
      match lookupField kv.1 p with
      | some v => (kv.1, v)
      | none => kv))
      = match lookupField key m with
        | none => none
        | some v0 =>
          match lookupField key p with
          | some v => some v
          | none => some v0 := by
  induction m with
  | nil => simp [lookupField]
  | cons kv m ih =>
    obtain ⟨k, v⟩ := kv
    by_cases hk : k = key
    · subst hk
      cases hp : lookupField k p with
      | some w => simp [lookupField, hp]
      | none => simp [lookupField, hp]
    · cases hp : lookupField k p with
      | some w => simp [lookupField, hk, hp, ih]
      | none => simp [lookupField, hk, hp, ih]

theorem lookupField_filter_none (key : String) (m p : List (String × Json))
    (hm : lookupField key m = none) :
    lookupField key (p.filter (fun kv => (lookupField kv.1 m).isNone))
      = lookupField key p := by
  induction p with
  | nil => simp
  | cons kv p ih =>
    obtain ⟨k, v⟩ := kv
    by_cases hk : k = key
    · subst hk
      simp [List.filter_cons, lookupField, hm, ih]
    · cases hf : (lookupField k m).isNone with
      | true => simp [List.filter_cons, hf, lookupField, hk, ih]
      | false => simp [List.filter_cons, hf, lookupField, hk, ih]

theorem lookupField_filter_some (key : String) (m p : List (String × Json)) (v0 : Json)
    (hm : lookupField key m = some v0) :
    lookupField key (p.filter (fun kv => (lookupField kv.1 m).isNone)) = none := by
  induction p with
  | nil => simp [lookupField]
  | cons kv p ih =>
    obtain ⟨k, v⟩ := kv
    by_cases hk : k = key
    · subst hk
      simp [List.filter_cons, lookupField, hm, ih]
    · cases hf : (lookupField k m).isNone with
      | true => simp [List.filter_cons, hf, lookupField, hk, ih]
      | false => simp [List.filter_cons, hf, lookupField, hk, ih]

theorem lookupField_jsMerge (m p : List (String × Json)) (key : String) :
    lookupField key (jsMerge m p)
      = match lookupField key p with
        | some v => some v
        | none => lookupField key m := by
  unfold jsMerge
  rw [lookupField_append, lookupField_override]
  cases hm : lookupField key m with
  | none =>
    rw [lookupField_filter_none key m p hm]
    cases hp : lookupField key p <;> simp
  | some v0 =>
    cases hp : lookupField key p with
    | some w => simp
    | none => simp [lookupField_filter_some key m p v0 hm]

/-- C9: when the stored document at the key parses to a mapping m, an
update with the partial mapping p writes back, to the same fully qualified
path the read used, exactly the compact serialization of the shallow merge
of p over m; and in that merge every key of p takes the value from p,
every other key of m keeps its value from m, and nothing else appears. -/
theorem C9_update_shallow_merge :
    ∀ (pfx key : String) (m p : List (String × Json)) (st : S3State) (body : String),
      lookupS3 (docPath pfx key) st = some body →
      parseJson body = some (.obj m) →
      (m.map Prod.fst).Nodup →
      update pfx key p st
        = .ok (insertS3 (docPath pfx key) (stringifyCompact (.obj (jsMerge m p))) st) ∧
      ∀ (field : String),
        lookupField field (jsMerge m p)
          = match lookupField field p with
            | some v => some v
            | none => lookupField field m := by
  intro pfx key m p st body hlook hparse _
  constructor
  · simp [update, get, hlook, hparse, jsSpread, put]
  · intro field
    exact lookupField_jsMerge m p field

/-- C9 witness: the spec example, updating a stored mapping with name and
email fields by a fresh field keeps both existing fields and appends the
new one. -/
theorem C9_update_shallow_merge_witness :
    update "users" "U12345" [("newProp", Json.str "v")]
        [(docPath "users" "U12345",
          stringifyCompact (Json.obj [("name", Json.str "John"), ("email", Json.str "j@x.com")]))]
      = .ok (insertS3 (docPath "users" "U12345")
          (stringifyCompact (Json.obj (jsMerge
            [("name", Json.str "John"), ("email", Json.str "j@x.com")]
            [("newProp", Json.str "v")])))
          [(docPath "users" "U12345",
            stringifyCompact (Json.obj
              [("name", Json.str "John"), ("email", Json.str "j@x.com")]))]) ∧
    jsMerge [("name", Json.str "John"), ("email", Json.str "j@x.com")]
        [("newProp", Json.str "v")]
      = [("name", Json.str "John"), ("email", Json.str "j@x.com"),
         ("newProp", Json.str "v")] := by
  constructor
  · exact (C9_update_shallow_merge "users" "U12345"
      [("name", Json.str "John"), ("email", Json.str "j@x.com")]
      [("newProp", Json.str "v")]
      [(docPath "users" "U12345",
        stringifyCompact (Json.obj [("name", Json.str "John"), ("email", Json.str "j@x.com")]))]
      (stringifyCompact (Json.obj [("name", Json.str "John"), ("email", Json.str "j@x.com")]))
      (by simp [lookupS3])
      (parseJson_stringifyCompact _)
      (by decide)).1
  · rfl

end S3db
